import Mathlib

/-!
Verification of the component dependency graph and composition engine of
`django-superapp-deploy` (files `components/base/component_types.py` and
`components/base/generate_skaffolds.py`), shallowly embedded in Lean.

Modelling conventions:
* Python objects are references into a heap.  A component object is a record
  of the attributes the resolver and aggregator read (`slug`, `namespace`,
  `dir_name`, `fleet_name`, `depends_on`); `depends_on` holds references
  (heap addresses) to other component objects, which makes cyclic object
  graphs expressible, exactly as in Python.
* The unbounded recursion of `visit_component` is modelled with explicit
  fuel; `none` means the recursion did not complete within the given fuel
  (for a cyclic graph this holds for every fuel, i.e. the Python code
  recurses unboundedly).
* The filesystem is a finite enumeration of (path, content) pairs; `glob`
  enumerates files in that order, and Python's stable `sorted` is modelled
  by `List.insertionSort` (also stable) with the very key used in the
  source.
-/

namespace SuperappDeploy

/-- Record of the attributes of a Python component object that
`_resolve_dependencies` and `generate_skaffolds` read.  The Python attribute
`namespace` is spelled `nspace` because `namespace` is a Lean keyword.
`depends_on` is a list of heap addresses (object references). -/
structure ComponentObj where
  slug : String
  nspace : String
  dir_name : String
  fleet_name : String
  depends_on : List Nat
deriving DecidableEq

/-- Heap of Python component objects; an object reference is an index. -/
abbrev Heap := List ComponentObj

/-- Embeds `_get_component_id` of components/base/generate_skaffolds.py:
the f-string `f"{component.slug}:{component.namespace}:{component.dir_name}:{component.fleet_name}"`. -/
def get_component_id (c : ComponentObj) : String :=
  c.slug ++ ":" ++ c.nspace ++ ":" ++ c.dir_name ++ ":" ++ c.fleet_name

/-- Mutable state of `_resolve_dependencies`: the `resolved_components`
list (as object references, in append order) and the `visited` set of id
strings (as the list of ids in insertion order; only membership is used). -/
structure ResolveState where
  resolved : List Nat
  visited : List String
deriving DecidableEq

/-- Embeds the `for dependency in component.depends_on: visit_component(dependency)`
loop of `visit_component` (an empty `depends_on` is falsy in Python, so the
guard `if component.depends_on:` is equivalent to just running the loop). -/
def visitList (visit1 : Nat → ResolveState → Option ResolveState) :
    List Nat → ResolveState → Option ResolveState
  | [], st => some st
  | d :: rest, st => (visit1 d st).bind fun st2 => visitList visit1 rest st2

/-- Embeds the recursive closure `visit_component` of `_resolve_dependencies`
(components/base/generate_skaffolds.py lines 25-38), with explicit fuel for
the recursion depth.  Returning `none` models non-completion (unbounded
recursion), and also the Python `AttributeError` on a dangling reference. -/
def visit_component (heap : Heap) : Nat → Nat → ResolveState → Option ResolveState
  | 0, _, _ => none
  | fuel + 1, addr, st =>
    (heap[addr]?).bind fun c =>
      if get_component_id c ∈ st.visited then some st
      else
        (visitList (fun d s => visit_component heap fuel d s) c.depends_on st).bind fun st2 =>
          if get_component_id c ∈ st2.visited then some st2
          else some ⟨st2.resolved ++ [addr], st2.visited ++ [get_component_id c]⟩

/-- Embeds `_resolve_dependencies` (components/base/generate_skaffolds.py
lines 17-44): visit every root in input order, then return the
`resolved_components` list (as object references). -/
def resolve_dependencies (heap : Heap) (fuel : Nat) (components : List Nat) :
    Option (List Nat) :=
  (visitList (fun d s => visit_component heap fuel d s) components ⟨[], []⟩).map
    fun st => st.resolved

/-- Identity string of the object at an address (junk `""` off the heap;
every address the resolver actually touches is on the heap). -/
def idAt (heap : Heap) (a : Nat) : String :=
  match heap[a]? with
  | some c => get_component_id c
  | none => ""

/-- Direct dependency edge of the object graph: `b` occurs in the
`depends_on` list of the object stored at `a`. -/
def depEdge (heap : Heap) (a b : Nat) : Prop :=
  ∃ c, heap[a]? = some c ∧ b ∈ c.depends_on

/-- Address that actually stores an object. -/
def validAddr (heap : Heap) (a : Nat) : Prop := ∃ c, heap[a]? = some c

/-- Dependency list of the object at an address (empty off the heap). -/
def depsAt (heap : Heap) (a : Nat) : List Nat :=
  match heap[a]? with
  | some c => c.depends_on
  | none => []

/-- Decidable coherence of a heap: any two stored objects with the same
identity string have the same `depends_on` list.  This rules out the
"duplicate identity with conflicting payload" situation of spec section 7. -/
def coherentb (heap : Heap) : Bool :=
  heap.all fun x => heap.all fun y =>
    !(get_component_id x == get_component_id y) || (x.depends_on == y.depends_on)

/-- Propositional coherence of a heap: equal identity strings imply equal
`depends_on` lists. -/
def Coherent (heap : Heap) : Prop :=
  ∀ (a b : Nat) (ca cb : ComponentObj), heap[a]? = some ca → heap[b]? = some cb →
    get_component_id ca = get_component_id cb → ca.depends_on = cb.depends_on

/-- State extension: the resolver only ever appends to both state lists. -/
def stExt (st st2 : ResolveState) : Prop :=
  (∃ t, st2.resolved = st.resolved ++ t) ∧ (∃ u, st2.visited = st.visited ++ u)

/-- Invariants of the resolver state: `visited` is exactly the identity
strings of `resolved` (in order, without repetition), every resolved
reference dereferences, every resolved object's dependencies have a
representative of their identity strictly earlier in the output, and
(given coherence) the dependencies of every visited identity are visited. -/
structure GoodState (heap : Heap) (st : ResolveState) : Prop where
  vis_eq : st.visited = st.resolved.map (idAt heap)
  nodup : st.visited.Nodup
  valid : ∀ a ∈ st.resolved, validAddr heap a
  closed : ∀ (i : Nat) (hi : i < st.resolved.length),
    ∀ d ∈ depsAt heap (st.resolved.get ⟨i, hi⟩),
      ∃ (j : Nat) (hj : j < st.resolved.length), j < i ∧
        idAt heap (st.resolved.get ⟨j, hj⟩) = idAt heap d
  idsClosed : ∀ (a : Nat) (c : ComponentObj), heap[a]? = some c →
    get_component_id c ∈ st.visited →
    ∀ d ∈ c.depends_on, validAddr heap d ∧ idAt heap d ∈ st.visited

/-! Filesystem model for `generate_skaffolds`.  A filesystem is the finite
enumeration of its files as (path, content) pairs; `glob.glob` enumerates
paths in that order. -/

/-- Finite filesystem: the list of (path, content) pairs, in the order the
directory walk enumerates them. -/
structure FileSys where
  files : List (String × String)
deriving DecidableEq

/-- Embeds `os.path.isfile`. -/
def isFile (fs : FileSys) (p : String) : Bool :=
  fs.files.any fun e => e.fst == p

/-- Embeds `ilio.write`: create the file, or overwrite its content in
place when the path already exists. -/
def writeFile (fs : FileSys) (p s : String) : FileSys :=
  if isFile fs p then ⟨fs.files.map fun e => if e.fst == p then (p, s) else e⟩
  else ⟨fs.files ++ [(p, s)]⟩

/-- Contiguous-sublist test on character lists (executable). -/
def listIsSub (p : List Char) : List Char → Bool
  | [] => p.isEmpty
  | a :: as => p.isPrefixOf (a :: as) || listIsSub p as

/-- Embeds the Python substring test `pat in s` on strings. -/
def strContains (s pat : String) : Bool :=
  listIsSub pat.data s.data

/-- Embeds `str.startswith` (used to model which paths the glob pattern
`f"{GENERATED_SKAFFOLD_TMP_DIR}/{dir_name}/**/*.*"` covers). -/
def strStartsWith (s pre : String) : Bool :=
  pre.data.isPrefixOf s.data

/-- Sort key of the fragment sort in `generate_skaffolds` line 61:
`(-1 if "operator" in x else 1) * len(x)`. -/
def sortKey (x : String) : Int :=
  (if strContains x "operator" then -1 else 1) * (x.length : Int)

/-- Characters of a path after its last `'/'` (the basename). -/
def baseName (l : List Char) : List Char :=
  (l.reverse.takeWhile fun c => c != '/').reverse

/-- Embeds `glob.glob(f"{tmp}/{dir_name}/**/*.*", recursive=True)`: every
file whose path lies under `tmp/dir_name/` and whose basename contains a
dot, in filesystem enumeration order. -/
def globFiles (tmp : String) (fs : FileSys) (dir : String) : List String :=
  (fs.files.map Prod.fst).filter fun p =>
    strStartsWith p (tmp ++ "/" ++ dir ++ "/") && (baseName p.data).contains '.'

/-- Embeds `sorted(glob.glob(...), key=lambda x: (-1 if "operator" in x else 1) * len(x), reverse=False)`.
Python's `sorted` is a stable ascending sort by the key; `List.insertionSort`
is stable for the reflexive total preorder `sortKey a ≤ sortKey b`, so it
computes the same list. -/
def sortedGlob (tmp : String) (fs : FileSys) (dir : String) : List String :=
  List.insertionSort (fun a b => sortKey a ≤ sortKey b) (globFiles tmp fs dir)

/-- Embeds the fragment filter of `generate_skaffolds` line 62: keep paths
containing `"/skaffold-"` but not `"/skaffold-with-build-"`, in sorted
order. -/
def discoveredFragments (tmp : String) (fs : FileSys) (dir : String) : List String :=
  (sortedGlob tmp fs dir).filter fun p =>
    strContains p "/skaffold-" && !strContains p "/skaffold-with-build-"

/-- Replacement loop on character lists: emit `rep` at every leftmost,
non-overlapping occurrence of `pat`; the counter skips the rest of a
matched occurrence.  Faithful to Python `str.replace` for the non-empty
patterns used here. -/
def replaceLoop (pat rep : List Char) : List Char → Nat → List Char
  | [], _ => []
  | _ :: as, k + 1 => replaceLoop pat rep as k
  | a :: as, 0 =>
    if pat.isPrefixOf (a :: as) then rep ++ replaceLoop pat rep as (pat.length - 1)
    else a :: replaceLoop pat rep as 0

/-- Embeds Python `s.replace(pat, rep)` (all occurrences, left to right). -/
def strReplace (s pat rep : String) : String :=
  ⟨replaceLoop pat.data rep.data s.data 0⟩

/-- Embeds the `skaffold_paths` list built in `generate_skaffolds` lines
59-65: each discovered fragment path with the `f"{tmp}/{dir_name}/"` text
replaced by `"./"` (the `path` field of the appended dict). -/
def skaffoldFragments (tmp : String) (fs : FileSys) (dir : String) : List String :=
  (discoveredFragments tmp fs dir).map fun p =>
    strReplace p (tmp ++ "/" ++ dir ++ "/") "./"

/-- Models `yaml.dump({"apiVersion": "skaffold/v3", "kind": "Config", "requires": [...]})`
as a fixed deterministic rendering of the list of required paths.  The
claims never inspect YAML syntax; they only use that the content is a
function of the path list. -/
def skaffoldYaml (paths : List String) : String :=
  "apiVersion: skaffold/v3\nkind: Config\nrequires:" ++
    (if paths.isEmpty then " []\n"
     else "\n" ++ String.join (paths.map fun p => "- path: " ++ p ++ "\n"))

/-- Path of a component's primary skaffold manifest,
`f"{tmp}/{dir_name}/skaffold.yaml"`. -/
def skaffoldPath (tmp dir : String) : String :=
  tmp ++ "/" ++ dir ++ "/skaffold.yaml"

/-- Path of the global descriptor, `f"{tmp}/skaffold--main--all.yaml"`. -/
def mainSkaffoldPath (tmp : String) : String :=
  tmp ++ "/skaffold--main--all.yaml"

/-- Embeds one iteration of the `for component in resolved_components`
loop of `generate_skaffolds` (lines 54-76): skip metadata-only components
(`dir_name == ""`), discover fragments, synthesize the primary manifest
when absent, and append the component's global reference. -/
def processComponent (tmp : String) (acc : FileSys × List String) (c : ComponentObj) :
    FileSys × List String :=
  if c.dir_name = "" then acc
  else
    let frags := skaffoldFragments tmp acc.1 c.dir_name
    let fs2 :=
      if isFile acc.1 (skaffoldPath tmp c.dir_name) then acc.1
      else writeFile acc.1 (skaffoldPath tmp c.dir_name) (skaffoldYaml frags)
    (fs2, acc.2 ++ [c.dir_name ++ "/skaffold.yaml"])

/-- One step of the aggregation fold: dereference the object reference and
run the loop body (a reference produced by the resolver always
dereferences; the `none` branch is unreachable there). -/
def skaffoldStep (tmp : String) (heap : Heap) (acc : FileSys × List String) (addr : Nat) :
    FileSys × List String :=
  match heap[addr]? with
  | some c => processComponent tmp acc c
  | none => acc

/-- Embeds `generate_skaffolds` (components/base/generate_skaffolds.py
lines 47-83): resolve dependencies, run the per-component loop over the
resolved order, then write the global descriptor listing every collected
per-component reference.  `GENERATED_SKAFFOLD_TMP_DIR` (read from the
environment by constants.py) is the explicit parameter `tmp`. -/
def generate_skaffolds (tmp : String) (heap : Heap) (fuel : Nat)
    (components : List Nat) (fs : FileSys) : Option FileSys :=
  (resolve_dependencies heap fuel components).map fun resolved =>
    let acc := resolved.foldl (skaffoldStep tmp heap) (fs, [])
    writeFile acc.1 (mainSkaffoldPath tmp) (skaffoldYaml acc.2)

/-- Global reference list contributed by a resolved order: one entry
`f"{dir_name}/skaffold.yaml"` per non-metadata component. -/
def globalEntries (heap : Heap) (resolved : List Nat) : List String :=
  resolved.filterMap fun a =>
    match heap[a]? with
    | some c => if c.dir_name = "" then none else some (c.dir_name ++ "/skaffold.yaml")
    | none => none

/-! Field list of the `Component` dataclass
(components/base/component_types.py lines 5-18).  A Python `@dataclass`
generates an `__init__` accepting exactly the declared fields as keywords,
and instances expose exactly these attributes. -/

/-- Fields declared by the `Component` dataclass. -/
def componentDataclassFields : List String :=
  ["slug", "namespace", "dir_name", "fleet_name"]

/-- Whether the dataclass-generated `Component.__init__` accepts the given
keyword argument (equivalently, whether instances carry the attribute). -/
def componentAcceptsAttr (name : String) : Bool :=
  componentDataclassFields.contains name

/-! Concrete object graphs and filesystems used to settle individual
claims. -/

/-- Two-object cycle `A(depends_on=[B]), B(depends_on=[A])` (spec section 8,
scenario 3). -/
def cycleHeap : Heap :=
  [⟨"A", "n", "da", "fa", [1]⟩, ⟨"B", "n", "db", "fb", [0]⟩]

/-- Acyclic heap with a conflicting duplicate identity: address 1 and
address 2 both have identity `m:n:dm:fm`, but only address 1 depends on
address 0. -/
def c1Heap : Heap :=
  [⟨"b", "n", "db", "fb", []⟩,
   ⟨"m", "n", "dm", "fm", [0]⟩,
   ⟨"m", "n", "dm", "fm", []⟩,
   ⟨"a", "n", "da", "fa", [1]⟩,
   ⟨"r", "n", "dr", "fr", [0]⟩]

/-- Heap with a conflicting duplicate identity: addresses 0 and 2 share
identity `p:n:dp:fp`, and only address 2 depends on address 1. -/
def c3Heap : Heap :=
  [⟨"p", "n", "dp", "fp", []⟩,
   ⟨"q", "n", "dq", "fq", []⟩,
   ⟨"p", "n", "dp", "fp", [1]⟩]

/-- Scenario-2 heap: `A` at address 0, `B(depends_on=[A])` at address 1. -/
def scenario2Heap : Heap :=
  [⟨"a", "n", "da", "fa", []⟩, ⟨"b", "n", "db", "fb", [0]⟩]

/-- Simple chain heap: address 1 depends on address 0. -/
def chainHeap : Heap :=
  [⟨"dep", "n", "dd", "fd", []⟩, ⟨"top", "n", "dt", "ft", [0]⟩]

/-- Heap for the first-wins behavior: addresses 0 and 2 share identity
`a:ns:da:fa`; only the later instance (address 2) depends on address 1. -/
def c10Heap : Heap :=
  [⟨"a", "ns", "da", "fa", []⟩, ⟨"c", "ns", "dc", "fc", []⟩, ⟨"a", "ns", "da", "fa", [1]⟩]

/-- Filesystem with two non-operator fragments of different lengths in one
bundle directory. -/
def c6Fs : FileSys :=
  ⟨[("t/a/skaffold-bbbb.yaml", ""), ("t/a/skaffold-c.yaml", "")]⟩

/-- Filesystem carrying the fragment-ordering example of spec section 8. -/
def c6wFs : FileSys :=
  ⟨[("t/a/skaffold-z.yaml", ""), ("t/a/skaffold-operator-x.yaml", ""),
    ("t/a/skaffold-m.yaml", "")]⟩

/-- Filesystem with no file under the bundle directory `t/d/`. -/
def c7wFs : FileSys := ⟨[("t/other/x.yaml", "z")]⟩

/-- Two components, the first metadata-only (`dir_name = ""`), the second
depending on it (spec section 8, scenario 4). -/
def c9Heap : Heap :=
  [⟨"m", "m", "", "mf", []⟩, ⟨"n", "n", "n", "nf", [0]⟩]

/-- Expected output filesystem of aggregation over `c9Heap` starting from
an empty filesystem. -/
def c9FsOut : FileSys :=
  ⟨[(skaffoldPath "t" "n", skaffoldYaml []),
    (mainSkaffoldPath "t", skaffoldYaml ["n/skaffold.yaml"])]⟩

/-- Single-component heap for the re-run example. -/
def c8Heap : Heap := [⟨"x", "x", "d", "xf", []⟩]

/-- Filesystem left by the first aggregation run over `c8Heap`. -/
def c8Fs1 : FileSys :=
  ⟨[(skaffoldPath "t" "d", skaffoldYaml []),
    (mainSkaffoldPath "t", skaffoldYaml ["d/skaffold.yaml"])]⟩

/-! Theorems. -/

/-- C4: the claim says every `Component` value carries a `dependsOn`
attribute and can be constructed with one.  The `Component` dataclass of
components/base/component_types.py declares no `depends_on` field, so the
generated `__init__` rejects the keyword every caller in the repository
supplies, and instances expose no such attribute. -/
theorem c4_component_lacks_depends_on : componentAcceptsAttr "depends_on" = false := by
  decide

/-- Splitting a character list at a separator absent from both head parts
is unambiguous. -/
theorem colon_split {l1 l2 m1 m2 : List Char} (h1 : ':' ∉ l1) (h2 : ':' ∉ m1)
    (h : l1 ++ ':' :: l2 = m1 ++ ':' :: m2) : l1 = m1 ∧ l2 = m2 := by
  induction l1 generalizing m1 with
  | nil =>
    cases m1 with
    | nil => simpa using h
    | cons b m =>
      exfalso
      have hb : (':' : Char) = b := by simpa using congrArg (fun l => l.headD ' ') h
      exact h2 (hb ▸ List.mem_cons_self b m)
  | cons a l1 ih =>
    cases m1 with
    | nil =>
      exfalso
      have ha : a = ':' := by simpa using congrArg (fun l => l.headD ' ') h
      exact h1 (ha ▸ List.mem_cons_self a l1)
    | cons b m =>
      have hab : a = b := by simpa using congrArg (fun l => l.headD ' ') h
      have htl : l1 ++ ':' :: l2 = m ++ ':' :: m2 := by
        simpa using congrArg List.tail h
      have h1' : ':' ∉ l1 := fun hx => h1 (List.mem_cons_of_mem a hx)
      have h2' : ':' ∉ m := fun hx => h2 (List.mem_cons_of_mem b hx)
      obtain ⟨e1, e2⟩ := ih h1' h2' htl
      exact ⟨by rw [hab, e1], e2⟩

/-- Character-level shape of the identity string built by
`_get_component_id`. -/
theorem get_component_id_data (c : ComponentObj) :
    (get_component_id c).data =
      c.slug.data ++ ':' :: (c.nspace.data ++ ':' :: (c.dir_name.data ++ ':' :: c.fleet_name.data)) := by
  have hc : (":" : String).data = [':'] := rfl
  simp [get_component_id, String.data_append, hc]

/-- C5 counterexample: the claim says the identity keys of two components
agree exactly when the 4-tuples agree componentwise, but the colon-joined
key collides for the componentwise-distinct tuples `("a:b","c","d","e")`
and `("a","b:c","d","e")`. -/
theorem c5_counterexample :
    get_component_id ⟨"a:b", "c", "d", "e", []⟩ = get_component_id ⟨"a", "b:c", "d", "e", []⟩ ∧
      ComponentObj.slug ⟨"a:b", "c", "d", "e", []⟩ ≠ ComponentObj.slug ⟨"a", "b:c", "d", "e", []⟩ := by
  constructor
  · decide
  · decide

/-- C5 (amended): componentwise equality of the 4-tuple always yields equal
identity keys, and the converse holds whenever the first three fields of
both components are free of the separator `':'` used by
`_get_component_id`. -/
theorem c5_identity_key (a b : ComponentObj)
    (ha1 : ':' ∉ a.slug.data) (ha2 : ':' ∉ a.nspace.data) (ha3 : ':' ∉ a.dir_name.data)
    (hb1 : ':' ∉ b.slug.data) (hb2 : ':' ∉ b.nspace.data) (hb3 : ':' ∉ b.dir_name.data) :
    get_component_id a = get_component_id b ↔
      (a.slug = b.slug ∧ a.nspace = b.nspace ∧ a.dir_name = b.dir_name ∧
        a.fleet_name = b.fleet_name) := by
  constructor
  · intro h
    have hd : (get_component_id a).data = (get_component_id b).data := by rw [h]
    rw [get_component_id_data, get_component_id_data] at hd
    obtain ⟨e1, hd⟩ := colon_split ha1 hb1 hd
    obtain ⟨e2, hd⟩ := colon_split ha2 hb2 hd
    obtain ⟨e3, e4⟩ := colon_split ha3 hb3 hd
    exact ⟨String.ext e1, String.ext e2, String.ext e3, String.ext e4⟩
  · rintro ⟨h1, h2, h3, h4⟩
    simp [get_component_id, h1, h2, h3, h4]

/-- Witness for `c5_identity_key` at a concrete colon-free input. -/
theorem c5_identity_key_witness :
    (':' ∉ ("s" : String).data) ∧
      (get_component_id ⟨"s", "n", "d", "f", []⟩ = get_component_id ⟨"s", "n", "d", "f2", []⟩ ↔
        (("s" : String) = "s" ∧ ("n" : String) = "n" ∧ ("d" : String) = "d" ∧
          ("f" : String) = "f2")) :=
  ⟨by decide,
    c5_identity_key ⟨"s", "n", "d", "f", []⟩ ⟨"s", "n", "d", "f2", []⟩
      (by decide) (by decide) (by decide) (by decide) (by decide) (by decide)⟩

/-- On the two-object cycle, neither visit can complete, whatever the
remaining recursion budget, as long as neither identity has been visited
yet. -/
theorem visit_cycle_none : ∀ (fuel : Nat) (st : ResolveState),
    "A:n:da:fa" ∉ st.visited → "B:n:db:fb" ∉ st.visited →
    visit_component cycleHeap fuel 0 st = none ∧
      visit_component cycleHeap fuel 1 st = none := by
  intro fuel
  induction fuel with
  | zero => intro st hA hB; exact ⟨rfl, rfl⟩
  | succ n ih =>
    intro st hA hB
    have h1 : visit_component cycleHeap n 1 st = none := (ih st hA hB).2
    have h0 : visit_component cycleHeap n 0 st = none := (ih st hA hB).1
    constructor
    · have e : cycleHeap[0]? = some ⟨"A", "n", "da", "fa", [1]⟩ := rfl
      have eid : get_component_id ⟨"A", "n", "da", "fa", [1]⟩ = "A:n:da:fa" := rfl
      simp only [visit_component, e, Option.some_bind, eid, visitList]
      rw [if_neg hA, h1]
      rfl
    · have e : cycleHeap[1]? = some ⟨"B", "n", "db", "fb", [0]⟩ := rfl
      have eid : get_component_id ⟨"B", "n", "db", "fb", [0]⟩ = "B:n:db:fb" := rfl
      simp only [visit_component, e, Option.some_bind, eid, visitList]
      rw [if_neg hB, h0]
      rfl

/-- C2: the claim says the resolver raises a descriptive cycle error on the
cyclic input `A(dependsOn=[B]), B(dependsOn=[A])`.  The source has no cycle
guard: on this input `visit_component` recurses without bound (in the
model, it exhausts every finite recursion budget; in Python it dies with a
`RecursionError`, not a cycle error). -/
theorem c2_cycle_never_terminates :
    ∀ fuel : Nat, resolve_dependencies cycleHeap fuel [0, 1] = none := by
  intro fuel
  have h0 : visit_component cycleHeap fuel 0 ⟨[], []⟩ = none :=
    (visit_cycle_none fuel ⟨[], []⟩ (by simp) (by simp)).1
  simp only [resolve_dependencies, visitList, h0, Option.none_bind, Option.map_none']

/-- C10: when `visit_component` reaches an object whose identity string is
already visited, it returns immediately with the state unchanged — the
later instance's `depends_on` list is never walked and nothing is
appended; concretely, over `c10Heap` the roots `[0, 2]` (two instances of
identity `a:ns:da:fa`, of which only the later one depends on address 1)
resolve to `[0]`: the first-visited instance is retained and address 1
never appears. -/
theorem c10_first_instance_wins (heap : Heap) (fuel a : Nat) (st : ResolveState)
    (c : ComponentObj) (hc : heap[a]? = some c) (hv : get_component_id c ∈ st.visited) :
    visit_component heap (fuel + 1) a st = some st ∧
      resolve_dependencies c10Heap 10 [0, 2] = some [0] := by
  constructor
  · simp only [visit_component, hc, Option.some_bind]
    rw [if_pos hv]
  · decide

/-- Witness for `c10_first_instance_wins`: the later duplicate instance at
address 2 of `c10Heap` is skipped without touching the state. -/
theorem c10_first_instance_wins_witness :
    (c10Heap[2]? = some ⟨"a", "ns", "da", "fa", [1]⟩) ∧
      visit_component c10Heap 5 2 ⟨[0], ["a:ns:da:fa"]⟩ = some ⟨[0], ["a:ns:da:fa"]⟩ :=
  ⟨rfl,
    (c10_first_instance_wins c10Heap 4 2 ⟨[0], ["a:ns:da:fa"]⟩ ⟨"a", "ns", "da", "fa", [1]⟩
      rfl (by decide)).1⟩

/-- C9: a metadata-only component (`dir_name == ""`) is skipped by the
aggregation loop — no file is written and no global reference appended —
while the resolver still places it in dependency order: over `c9Heap` the
root `[1]` resolves to `[0, 1]` (the metadata-only component first), and
aggregation from an empty filesystem writes only the other component's
manifest plus a global descriptor whose reference list names only that
other component. -/
theorem c9_metadata_only (tmp : String) (fs : FileSys) (g : List String) (c : ComponentObj)
    (h : c.dir_name = "") :
    processComponent tmp (fs, g) c = (fs, g) ∧
      resolve_dependencies c9Heap 10 [1] = some [0, 1] ∧
      generate_skaffolds "t" c9Heap 10 [1] ⟨[]⟩ = some c9FsOut := by
  refine ⟨?_, by decide, by decide⟩
  simp [processComponent, h]

/-- Witness for `c9_metadata_only` at the metadata-only component of
`c9Heap`. -/
theorem c9_metadata_only_witness :
    (ComponentObj.dir_name ⟨"m", "m", "", "mf", []⟩ = "") ∧
      processComponent "t" (⟨[]⟩, []) ⟨"m", "m", "", "mf", []⟩ = (⟨[]⟩, []) :=
  ⟨rfl, (c9_metadata_only "t" ⟨[]⟩ [] ⟨"m", "m", "", "mf", []⟩ rfl).1⟩

/-- C6 counterexample: the claim says non-operator fragment paths are
ordered by descending path length, but the source key
`(-1 if "operator" in x else 1) * len(x)` sorts non-operator paths by
ascending length: in the bundle `c6Fs` the shorter fragment comes first. -/
theorem c6_counterexample :
    skaffoldFragments "t" c6Fs "a" = ["./skaffold-c.yaml", "./skaffold-bbbb.yaml"] ∧
      ("./skaffold-c.yaml" : String).length < ("./skaffold-bbbb.yaml" : String).length ∧
      skaffoldFragments "t" c6Fs "a" ≠ ["./skaffold-bbbb.yaml", "./skaffold-c.yaml"] := by
  refine ⟨by decide, by decide, by decide⟩

/-- Sublist test on a nonempty pattern succeeds only in a nonempty list. -/
theorem listIsSub_ne_nil {p l : List Char} (hp : p ≠ []) (h : listIsSub p l = true) :
    l ≠ [] := by
  intro hl
  subst hl
  simp only [listIsSub, List.isEmpty_iff] at h
  exact hp h

/-- Paths containing `"operator"` are nonempty. -/
theorem length_pos_of_contains_operator {x : String} (h : strContains x "operator" = true) :
    0 < x.length := by
  have hne : x.data ≠ [] :=
    @listIsSub_ne_nil ("operator" : String).data x.data (by decide) h
  have : x.length = x.data.length := rfl
  rw [this]
  exact List.length_pos.mpr hne

/-- Operator paths get a negative sort key. -/
theorem sortKey_neg_of_operator {x : String} (h : strContains x "operator" = true) :
    sortKey x < 0 := by
  have hx := length_pos_of_contains_operator h
  simp only [sortKey, h, if_pos]
  omega

/-- Non-operator paths get a nonnegative sort key. -/
theorem sortKey_nonneg_of_not_operator {x : String} (h : strContains x "operator" = false) :
    0 ≤ sortKey x := by
  simp only [sortKey, h]
  simp

/-- C6 (amended): the discovered fragments of a bundle are ordered by
nondecreasing value of the source's key `(operator ? -1 : 1) * len`: every
fragment whose path contains `"operator"` precedes every fragment whose
path does not (and consequently non-operator fragments are ordered by
ascending, not descending, path length). -/
theorem c6_fragment_order (tmp : String) (fs : FileSys) (dir : String) :
    List.Pairwise (fun a b => sortKey a ≤ sortKey b) (discoveredFragments tmp fs dir) ∧
      ∀ i j (hi : i < (discoveredFragments tmp fs dir).length)
        (hj : j < (discoveredFragments tmp fs dir).length),
        strContains ((discoveredFragments tmp fs dir).get ⟨i, hi⟩) "operator" = true →
        strContains ((discoveredFragments tmp fs dir).get ⟨j, hj⟩) "operator" = false →
        i < j := by
  haveI htot : IsTotal String fun a b => sortKey a ≤ sortKey b := ⟨fun a b => le_total _ _⟩
  haveI htr : IsTrans String fun a b => sortKey a ≤ sortKey b :=
    ⟨fun _ _ _ hab hbc => le_trans hab hbc⟩
  have hsorted : List.Pairwise (fun a b => sortKey a ≤ sortKey b) (sortedGlob tmp fs dir) :=
    List.sorted_insertionSort _ (globFiles tmp fs dir)
  have hp : List.Pairwise (fun a b => sortKey a ≤ sortKey b) (discoveredFragments tmp fs dir) :=
    hsorted.filter _
  refine ⟨hp, ?_⟩
  intro i j hi hj hopi hopj
  rcases Nat.lt_trichotomy i j with h | h | h
  · exact h
  · exfalso
    subst h
    rw [hopi] at hopj
    cases hopj
  · exfalso
    have hle := (List.pairwise_iff_getElem.mp hp) j i hj hi h
    have hopi2 : strContains ((discoveredFragments tmp fs dir)[i]) "operator" = true := by
      simpa using hopi
    have hopj2 : strContains ((discoveredFragments tmp fs dir)[j]) "operator" = false := by
      simpa using hopj
    have h1 := sortKey_neg_of_operator hopi2
    have h2 := sortKey_nonneg_of_not_operator hopj2
    omega

/-- Witness for `c6_fragment_order` at the fragment-ordering example of
spec section 8: the operator path sorts first. -/
theorem c6_fragment_order_witness :
    discoveredFragments "t" c6wFs "a" =
      ["t/a/skaffold-operator-x.yaml", "t/a/skaffold-z.yaml", "t/a/skaffold-m.yaml"] ∧
      (0 : Nat) < 1 :=
  ⟨by decide,
    (c6_fragment_order "t" c6wFs "a").2 0 1 (by decide) (by decide) (by decide) (by decide)⟩

/-- Prefix test on character lists succeeds on an appended extension. -/
theorem listPrefixOf_append : ∀ (l t : List Char), l.isPrefixOf (l ++ t) = true := by
  intro l t
  induction l with
  | nil => simp [List.isPrefixOf]
  | cons a as ih => simp [List.isPrefixOf, ih]

/-- Appending to a string keeps it starting with the original string. -/
theorem strStartsWith_append (a b : String) : strStartsWith (a ++ b) a = true := by
  simp [strStartsWith, String.data_append, listPrefixOf_append]

/-- Shape of a primary-manifest path: the bundle prefix followed by the
file name. -/
theorem skaffoldPath_eq (tmp dir : String) :
    skaffoldPath tmp dir = (tmp ++ "/" ++ dir ++ "/") ++ "skaffold.yaml" := by
  apply String.ext
  have h1 : ("/skaffold.yaml" : String).data = '/' :: ("skaffold.yaml" : String).data := rfl
  have h2 : ("/" : String).data = ['/'] := rfl
  simp [skaffoldPath, String.data_append, h1, h2]

/-- The written path is a file of the result of `writeFile`. -/
theorem isFile_writeFile_self (fs : FileSys) (p s : String) :
    isFile (writeFile fs p s) p = true := by
  unfold writeFile
  by_cases h : isFile fs p = true
  · rw [if_pos h]
    obtain ⟨e, he, heq⟩ := List.any_eq_true.mp h
    apply List.any_eq_true.mpr
    refine ⟨(p, s), List.mem_map.mpr ⟨e, he, ?_⟩, by simp⟩
    simp [heq]
  · rw [if_neg h]
    apply List.any_eq_true.mpr
    exact ⟨(p, s), by simp, by simp⟩

/-- Files survive a `writeFile` of any path. -/
theorem isFile_writeFile_mono (fs : FileSys) (q p s : String) (h : isFile fs q = true) :
    isFile (writeFile fs p s) q = true := by
  unfold writeFile
  obtain ⟨e, he, heq⟩ := List.any_eq_true.mp h
  have heq' : e.fst = q := by simpa using heq
  by_cases hp : isFile fs p = true
  · rw [if_pos hp]
    apply List.any_eq_true.mpr
    by_cases hep : (e.fst == p) = true
    · have hpq : p = q := by
        have : e.fst = p := by simpa using hep
        rw [← this, heq']
      refine ⟨(p, s), List.mem_map.mpr ⟨e, he, by simp [hep]⟩, by simp [hpq]⟩
    · refine ⟨e, List.mem_map.mpr ⟨e, he, by simp [hep]⟩, by simp [heq']⟩
  · rw [if_neg hp]
    apply List.any_eq_true.mpr
    exact ⟨e, by simp [he], by simp [heq']⟩

/-- Overwriting is the identity when every entry at the path already holds
the content being written. -/
theorem writeFile_eq_self (fs : FileSys) (p s : String)
    (hp : isFile fs p = true)
    (h : ∀ e ∈ fs.files, (if e.fst == p then (p, s) else e) = e) :
    writeFile fs p s = fs := by
  cases fs with
  | mk files =>
    unfold writeFile
    rw [if_pos hp]
    congr 1
    calc files.map (fun e => if e.fst == p then (p, s) else e)
        = files.map id := List.map_congr_left fun e he => h e he
      _ = files := List.map_id _

/-- Writing the same content to the same path twice equals writing once. -/
theorem writeFile_idem (fs : FileSys) (p s : String) :
    writeFile (writeFile fs p s) p s = writeFile fs p s := by
  apply writeFile_eq_self _ _ _ (isFile_writeFile_self fs p s)
  intro e he
  unfold writeFile at he
  by_cases hp : isFile fs p = true
  · rw [if_pos hp] at he
    obtain ⟨e0, _, heq⟩ := List.mem_map.mp he
    by_cases h0 : (e0.fst == p) = true
    · rw [if_pos h0] at heq
      rw [← heq]
      simp
    · rw [if_neg h0] at heq
      rw [← heq]
      simp [h0]
  · rw [if_neg hp] at he
    rcases List.mem_append.mp he with h1 | h1
    · have hne : ¬ (e.fst == p) = true := by
        intro hc
        apply hp
        exact List.any_eq_true.mpr ⟨e, h1, hc⟩
      simp [hne]
    · have he2 : e = (p, s) := by simpa using h1
      simp [he2]

/-- The pair written by `writeFile` occurs in the resulting file list. -/
theorem writeFile_mem_self (fs : FileSys) (p s : String) :
    (p, s) ∈ (writeFile fs p s).files := by
  unfold writeFile
  by_cases h : isFile fs p = true
  · rw [if_pos h]
    obtain ⟨e, he, heq⟩ := List.any_eq_true.mp h
    exact List.mem_map.mpr ⟨e, he, by simp [heq]⟩
  · rw [if_neg h]
    simp

/-- The global-reference component of the loop body. -/
theorem processComponent_snd (tmp : String) (acc : FileSys × List String) (c : ComponentObj) :
    (processComponent tmp acc c).2 =
      acc.2 ++ (if c.dir_name = "" then [] else [c.dir_name ++ "/skaffold.yaml"]) := by
  unfold processComponent
  by_cases h : c.dir_name = ""
  · simp [h]
  · simp [h]

/-- The loop body only adds files, so existing files survive it. -/
theorem processComponent_fst_mono (tmp : String) (acc : FileSys × List String)
    (c : ComponentObj) (q : String) (h : isFile acc.1 q = true) :
    isFile (processComponent tmp acc c).1 q = true := by
  unfold processComponent
  by_cases hd : c.dir_name = ""
  · simpa [hd] using h
  · by_cases hf : isFile acc.1 (skaffoldPath tmp c.dir_name) = true
    · simpa [hd, hf] using h
    · simp only [hd, hf, if_neg, if_false]
      simpa using isFile_writeFile_mono acc.1 q _ _ h

/-- After the loop body, the component's primary manifest exists. -/
theorem processComponent_fst_self (tmp : String) (acc : FileSys × List String)
    (c : ComponentObj) (h : c.dir_name ≠ "") :
    isFile (processComponent tmp acc c).1 (skaffoldPath tmp c.dir_name) = true := by
  unfold processComponent
  by_cases hf : isFile acc.1 (skaffoldPath tmp c.dir_name) = true
  · simp [h, hf]
  · simpa [h, hf] using isFile_writeFile_self acc.1 (skaffoldPath tmp c.dir_name) _

/-- The loop body writes nothing when the component is metadata-only or
its primary manifest already exists. -/
theorem processComponent_fst_noop (tmp : String) (acc : FileSys × List String)
    (c : ComponentObj)
    (h : c.dir_name = "" ∨ isFile acc.1 (skaffoldPath tmp c.dir_name) = true) :
    (processComponent tmp acc c).1 = acc.1 := by
  unfold processComponent
  rcases h with h | h
  · simp [h]
  · by_cases hd : c.dir_name = ""
    · simp [hd]
    · simp [hd, h]

/-- The aggregation fold accumulates exactly the global reference list. -/
theorem foldl_step_snd (tmp : String) (heap : Heap) :
    ∀ (out : List Nat) (acc : FileSys × List String),
      (out.foldl (skaffoldStep tmp heap) acc).2 = acc.2 ++ globalEntries heap out := by
  intro out
  induction out with
  | nil => intro acc; simp [globalEntries]
  | cons a out ih =>
    intro acc
    rw [List.foldl_cons, ih]
    have hge : ∀ t, globalEntries heap (a :: out) = t ++ globalEntries heap out →
        acc.2 ++ globalEntries heap (a :: out) = (acc.2 ++ t) ++ globalEntries heap out := by
      intro t ht
      rw [ht, List.append_assoc]
    cases hc : heap[a]? with
    | none =>
      have h1 : (skaffoldStep tmp heap acc a).2 = acc.2 := by
        unfold skaffoldStep
        rw [hc]
      have h2 : globalEntries heap (a :: out) = globalEntries heap out := by
        unfold globalEntries
        rw [List.filterMap_cons, hc]
      rw [h1, h2]
    | some c =>
      have h1 : (skaffoldStep tmp heap acc a).2 =
          acc.2 ++ (if c.dir_name = "" then [] else [c.dir_name ++ "/skaffold.yaml"]) := by
        unfold skaffoldStep
        rw [hc]
        exact processComponent_snd tmp acc c
      have h2 : globalEntries heap (a :: out) =
          (if c.dir_name = "" then [] else [c.dir_name ++ "/skaffold.yaml"]) ++
            globalEntries heap out := by
        unfold globalEntries
        rw [List.filterMap_cons, hc]
        by_cases hd : c.dir_name = ""
        · simp [hd]
        · simp [hd]
      rw [h1, hge _ h2]

/-- Files survive the whole aggregation fold. -/
theorem foldl_step_fst_mono (tmp : String) (heap : Heap) (q : String) :
    ∀ (out : List Nat) (acc : FileSys × List String), isFile acc.1 q = true →
      isFile (out.foldl (skaffoldStep tmp heap) acc).1 q = true := by
  intro out
  induction out with
  | nil => intro acc h; simpa using h
  | cons a out ih =>
    intro acc h
    rw [List.foldl_cons]
    apply ih
    unfold skaffoldStep
    cases hc : heap[a]? with
    | none => simpa using h
    | some c => exact processComponent_fst_mono tmp acc c q h

/-- After the aggregation fold, every processed non-metadata component's
primary manifest exists. -/
theorem foldl_step_establishes (tmp : String) (heap : Heap) :
    ∀ (out : List Nat) (acc : FileSys × List String) (a : Nat) (c : ComponentObj),
      a ∈ out → heap[a]? = some c → c.dir_name ≠ "" →
      isFile (out.foldl (skaffoldStep tmp heap) acc).1 (skaffoldPath tmp c.dir_name) = true := by
  intro out
  induction out with
  | nil => intro acc a c ha; cases ha
  | cons b out ih =>
    intro acc a c ha hc hd
    rw [List.foldl_cons]
    rcases List.mem_cons.mp ha with h | h
    · subst h
      apply foldl_step_fst_mono
      unfold skaffoldStep
      rw [hc]
      exact processComponent_fst_self tmp acc c hd
    · exact ih _ a c h hc hd

/-- When every processed component's primary manifest already exists, the
aggregation fold changes no file. -/
theorem foldl_step_fst_noop (tmp : String) (heap : Heap) :
    ∀ (out : List Nat) (acc : FileSys × List String),
      (∀ a ∈ out, ∀ c, heap[a]? = some c → c.dir_name ≠ "" →
        isFile acc.1 (skaffoldPath tmp c.dir_name) = true) →
      (out.foldl (skaffoldStep tmp heap) acc).1 = acc.1 := by
  intro out
  induction out with
  | nil => intro acc _; rfl
  | cons b out ih =>
    intro acc h
    rw [List.foldl_cons]
    have hb : (skaffoldStep tmp heap acc b).1 = acc.1 := by
      unfold skaffoldStep
      cases hc : heap[b]? with
      | none => rfl
      | some c =>
        apply processComponent_fst_noop
        by_cases hd : c.dir_name = ""
        · exact Or.inl hd
        · exact Or.inr (h b (List.mem_cons_self b out) c hc hd)
    rw [ih (skaffoldStep tmp heap acc b)
      (fun a ha c hc hd => by rw [hb]; exact h a (List.mem_cons_of_mem b ha) c hc hd)]
    exact hb

/-- A successful aggregation run always writes the global descriptor whose
reference list names exactly the non-metadata components of the resolved
order. -/
theorem generate_main_descriptor (tmp : String) (heap : Heap) (fuel : Nat)
    (roots : List Nat) (fs fs1 : FileSys)
    (h : generate_skaffolds tmp heap fuel roots fs = some fs1) :
    ∃ out, resolve_dependencies heap fuel roots = some out ∧
      (mainSkaffoldPath tmp, skaffoldYaml (globalEntries heap out)) ∈ fs1.files ∧
      isFile fs1 (mainSkaffoldPath tmp) = true := by
  unfold generate_skaffolds at h
  cases hres : resolve_dependencies heap fuel roots with
  | none => rw [hres] at h; cases h
  | some out =>
    rw [hres, Option.map_some'] at h
    have hfs1 : fs1 =
        writeFile (out.foldl (skaffoldStep tmp heap) (fs, [])).1 (mainSkaffoldPath tmp)
          (skaffoldYaml (out.foldl (skaffoldStep tmp heap) (fs, [])).2) :=
      (Option.some.inj h).symm
    refine ⟨out, rfl, ?_, ?_⟩
    · rw [hfs1]
      have hsnd : (out.foldl (skaffoldStep tmp heap) (fs, [])).2 = globalEntries heap out := by
        rw [foldl_step_snd]; simp
      rw [hsnd]
      exact writeFile_mem_self _ _ _
    · rw [hfs1]
      exact isFile_writeFile_self _ _ _

/-- C7: for a non-metadata component whose bundle directory holds no file,
aggregation recovers: the fragment list is empty, the loop body
synthesizes the minimal primary manifest and still appends the component's
global reference, and a successful run still writes the global descriptor
covering every other component. -/
theorem c7_missing_bundle (tmp : String) (fs : FileSys) (g : List String) (c : ComponentObj)
    (hdir : c.dir_name ≠ "")
    (habsent : ∀ e ∈ fs.files, strStartsWith e.fst (tmp ++ "/" ++ c.dir_name ++ "/") = false) :
    skaffoldFragments tmp fs c.dir_name = [] ∧
      processComponent tmp (fs, g) c =
        (writeFile fs (skaffoldPath tmp c.dir_name) (skaffoldYaml []),
          g ++ [c.dir_name ++ "/skaffold.yaml"]) ∧
      ∀ heap fuel roots fs0 fs1, generate_skaffolds tmp heap fuel roots fs0 = some fs1 →
        ∃ out, resolve_dependencies heap fuel roots = some out ∧
          (mainSkaffoldPath tmp, skaffoldYaml (globalEntries heap out)) ∈ fs1.files := by
  have hglob : globFiles tmp fs c.dir_name = [] := by
    apply List.filter_eq_nil_iff.mpr
    intro p hp
    obtain ⟨e, he, hep⟩ := List.mem_map.mp hp
    rw [← hep]
    simp [habsent e he]
  have hfrag : skaffoldFragments tmp fs c.dir_name = [] := by
    unfold skaffoldFragments discoveredFragments sortedGlob
    rw [hglob]
    rfl
  have hnofile : ¬ isFile fs (skaffoldPath tmp c.dir_name) = true := by
    intro hf
    obtain ⟨e, he, heq⟩ := List.any_eq_true.mp hf
    have heq' : e.fst = skaffoldPath tmp c.dir_name := by simpa using heq
    have hsw : strStartsWith e.fst (tmp ++ "/" ++ c.dir_name ++ "/") = true := by
      rw [heq', skaffoldPath_eq]
      exact strStartsWith_append _ _
    rw [habsent e he] at hsw
    cases hsw
  refine ⟨hfrag, ?_, ?_⟩
  · unfold processComponent
    simp only [hdir, if_neg, if_false, hnofile, hfrag]
    simp [hdir, hnofile, hfrag]
  · intro heap fuel roots fs0 fs1 h
    obtain ⟨out, h1, h2, _⟩ := generate_main_descriptor tmp heap fuel roots fs0 fs1 h
    exact ⟨out, h1, h2⟩

/-- Witness for `c7_missing_bundle`: a bundle directory `t/d/` with no file
on disk yields an empty fragment list. -/
theorem c7_missing_bundle_witness :
    (("d" : String) ≠ "") ∧ skaffoldFragments "t" c7wFs "d" = [] :=
  ⟨by decide, (c7_missing_bundle "t" c7wFs [] ⟨"s", "n", "d", "f", []⟩ (by decide) (by decide)).1⟩

/-- C8: re-running aggregation over the same component list against the
on-disk state left by a successful run writes content-identical output:
the second run returns exactly the filesystem it started from (every
primary manifest already exists, so none is rewritten, and the global
descriptor is rewritten with identical content). -/
theorem c8_rerun_identical (tmp : String) (heap : Heap) (fuel : Nat) (roots : List Nat)
    (fs fs1 : FileSys) (h : generate_skaffolds tmp heap fuel roots fs = some fs1) :
    generate_skaffolds tmp heap fuel roots fs1 = some fs1 := by
  unfold generate_skaffolds at h ⊢
  cases hres : resolve_dependencies heap fuel roots with
  | none => rw [hres] at h; cases h
  | some out =>
    rw [hres] at h
    simp only [Option.map_some'] at h ⊢
    have hfs1 : fs1 =
        writeFile (out.foldl (skaffoldStep tmp heap) (fs, [])).1 (mainSkaffoldPath tmp)
          (skaffoldYaml (out.foldl (skaffoldStep tmp heap) (fs, [])).2) :=
      (Option.some.inj h).symm
    have hest : ∀ a ∈ out, ∀ c, heap[a]? = some c → c.dir_name ≠ "" →
        isFile fs1 (skaffoldPath tmp c.dir_name) = true := by
      intro a ha c hc hd
      rw [hfs1]
      exact isFile_writeFile_mono _ _ _ _
        (foldl_step_establishes tmp heap out (fs, []) a c ha hc hd)
    have hnoop : (out.foldl (skaffoldStep tmp heap) (fs1, [])).1 = fs1 :=
      foldl_step_fst_noop tmp heap out (fs1, []) fun a ha c hc hd => hest a ha c hc hd
    have hsnd2 : (out.foldl (skaffoldStep tmp heap) (fs1, [])).2 = globalEntries heap out := by
      rw [foldl_step_snd]; simp
    have hsnd1 : (out.foldl (skaffoldStep tmp heap) (fs, [])).2 = globalEntries heap out := by
      rw [foldl_step_snd]; simp
    rw [hnoop, hsnd2]
    have hstep : writeFile fs1 (mainSkaffoldPath tmp) (skaffoldYaml (globalEntries heap out)) =
        fs1 := by
      rw [hfs1, hsnd1]
      exact writeFile_idem _ _ _
    rw [hstep]

/-- Witness for `c8_rerun_identical`: over `c8Heap` the first run from an
empty filesystem produces `c8Fs1`, and the second run reproduces it. -/
theorem c8_rerun_identical_witness :
    generate_skaffolds "t" c8Heap 10 [0] ⟨[]⟩ = some c8Fs1 ∧
      generate_skaffolds "t" c8Heap 10 [0] c8Fs1 = some c8Fs1 :=
  ⟨by decide, c8_rerun_identical "t" c8Heap 10 [0] ⟨[]⟩ c8Fs1 (by decide)⟩

/-- Unfolding equation of `visit_component` at zero fuel. -/
theorem visit_component_zero (heap : Heap) (a : Nat) (st : ResolveState) :
    visit_component heap 0 a st = none := rfl

/-- Unfolding equation of `visit_component` at positive fuel. -/
theorem visit_component_succ (heap : Heap) (fuel a : Nat) (st : ResolveState) :
    visit_component heap (fuel + 1) a st =
      (heap[a]?).bind fun c =>
        if get_component_id c ∈ st.visited then some st
        else
          (visitList (fun d s => visit_component heap fuel d s) c.depends_on st).bind fun st2 =>
            if get_component_id c ∈ st2.visited then some st2
            else some ⟨st2.resolved ++ [a], st2.visited ++ [get_component_id c]⟩ := rfl

/-- State extension is reflexive. -/
theorem stExt_refl (st : ResolveState) : stExt st st :=
  ⟨⟨[], by simp⟩, ⟨[], by simp⟩⟩

/-- State extension is transitive. -/
theorem stExt_trans {s1 s2 s3 : ResolveState} (h1 : stExt s1 s2) (h2 : stExt s2 s3) :
    stExt s1 s3 := by
  obtain ⟨⟨t1, ht1⟩, ⟨u1, hu1⟩⟩ := h1
  obtain ⟨⟨t2, ht2⟩, ⟨u2, hu2⟩⟩ := h2
  exact ⟨⟨t1 ++ t2, by rw [ht2, ht1, List.append_assoc]⟩,
    ⟨u1 ++ u2, by rw [hu2, hu1, List.append_assoc]⟩⟩

/-- Visited identities survive state extension. -/
theorem stExt_visited_mem {st st2 : ResolveState} (h : stExt st st2) {x : String}
    (hx : x ∈ st.visited) : x ∈ st2.visited := by
  obtain ⟨_, ⟨u, hu⟩⟩ := h
  rw [hu]
  exact List.mem_append_left u hx

/-- A list visit extends the state whenever each single visit does. -/
theorem visitList_ext (visit1 : Nat → ResolveState → Option ResolveState)
    (h1 : ∀ a st st2, visit1 a st = some st2 → stExt st st2) :
    ∀ (l : List Nat) (st st2 : ResolveState),
      visitList visit1 l st = some st2 → stExt st st2 := by
  intro l
  induction l with
  | nil =>
    intro st st2 h
    simp only [visitList, Option.some.injEq] at h
    rw [← h]
    exact stExt_refl st
  | cons d rest ih =>
    intro st st2 h
    simp only [visitList] at h
    cases hv : visit1 d st with
    | none => rw [hv] at h; cases h
    | some stm =>
      rw [hv, Option.some_bind] at h
      exact stExt_trans (h1 d st stm hv) (ih stm st2 h)

/-- A component visit only appends to the state. -/
theorem visit_ext (heap : Heap) :
    ∀ (fuel a : Nat) (st st2 : ResolveState),
      visit_component heap fuel a st = some st2 → stExt st st2 := by
  intro fuel
  induction fuel with
  | zero => intro a st st2 h; cases h
  | succ fuel ih =>
    intro a st st2 h
    rw [visit_component_succ] at h
    cases hc : heap[a]? with
    | none => rw [hc] at h; cases h
    | some c =>
      rw [hc, Option.some_bind] at h
      by_cases hv : get_component_id c ∈ st.visited
      · rw [if_pos hv] at h
        rw [← Option.some.inj h]
        exact stExt_refl st
      · rw [if_neg hv] at h
        cases hvl : visitList (fun d s => visit_component heap fuel d s) c.depends_on st with
        | none => rw [hvl] at h; cases h
        | some st3 =>
          rw [hvl, Option.some_bind] at h
          have hext3 : stExt st st3 := visitList_ext _ (fun a st st2 => ih a st st2) _ _ _ hvl
          by_cases hv3 : get_component_id c ∈ st3.visited
          · rw [if_pos hv3] at h
            rw [← Option.some.inj h]
            exact hext3
          · rw [if_neg hv3] at h
            rw [← Option.some.inj h]
            exact stExt_trans hext3
              ⟨⟨[a], rfl⟩, ⟨[get_component_id c], rfl⟩⟩

/-- A successful component visit leaves the component's identity visited,
and the reference dereferences. -/
theorem visit_post (heap : Heap) (fuel a : Nat) (st st2 : ResolveState)
    (h : visit_component heap fuel a st = some st2) :
    validAddr heap a ∧ idAt heap a ∈ st2.visited := by
  cases fuel with
  | zero => cases h
  | succ fuel =>
    rw [visit_component_succ] at h
    cases hc : heap[a]? with
    | none => rw [hc] at h; cases h
    | some c =>
      rw [hc, Option.some_bind] at h
      have hid : idAt heap a = get_component_id c := by
        unfold idAt
        rw [hc]
      refine ⟨⟨c, hc⟩, ?_⟩
      rw [hid]
      by_cases hv : get_component_id c ∈ st.visited
      · rw [if_pos hv] at h
        rw [← Option.some.inj h]
        exact hv
      · rw [if_neg hv] at h
        cases hvl : visitList (fun d s => visit_component heap fuel d s) c.depends_on st with
        | none => rw [hvl] at h; cases h
        | some st3 =>
          rw [hvl, Option.some_bind] at h
          by_cases hv3 : get_component_id c ∈ st3.visited
          · rw [if_pos hv3] at h
            rw [← Option.some.inj h]
            exact hv3
          · rw [if_neg hv3] at h
            rw [← Option.some.inj h]
            simp

/-- After a successful list visit, every listed reference dereferences and
its identity is visited. -/
theorem visitList_post (heap : Heap) (fuel : Nat) :
    ∀ (l : List Nat) (st st2 : ResolveState),
      visitList (fun d s => visit_component heap fuel d s) l st = some st2 →
      ∀ d ∈ l, validAddr heap d ∧ idAt heap d ∈ st2.visited := by
  intro l
  induction l with
  | nil => intro st st2 _ d hd; cases hd
  | cons e rest ih =>
    intro st st2 h d hd
    simp only [visitList] at h
    cases hv : visit_component heap fuel e st with
    | none => rw [hv] at h; cases h
    | some stm =>
      rw [hv, Option.some_bind] at h
      rcases List.mem_cons.mp hd with hde | hde
      · subst hde
        obtain ⟨hvalid, hmem⟩ := visit_post heap fuel d st stm hv
        exact ⟨hvalid,
          stExt_visited_mem (visitList_ext _ (fun a s s2 => visit_ext heap fuel a s s2) _ _ _ h)
            hmem⟩
      · exact ih stm st2 h d hde

/-- Last element of an appended singleton. -/
theorem get_append_singleton {α : Type} (l : List α) (a : α)
    (h : l.length < (l ++ [a]).length) : (l ++ [a]).get ⟨l.length, h⟩ = a := by
  simp

/-- A list visit preserves any property each single visit preserves. -/
theorem visitList_good (heap : Heap) (visit1 : Nat → ResolveState → Option ResolveState)
    (h1 : ∀ a st st2, visit1 a st = some st2 → GoodState heap st → GoodState heap st2) :
    ∀ (l : List Nat) (st st2 : ResolveState),
      visitList visit1 l st = some st2 → GoodState heap st → GoodState heap st2 := by
  intro l
  induction l with
  | nil =>
    intro st st2 h hg
    simp only [visitList, Option.some.injEq] at h
    rwa [← h]
  | cons d rest ih =>
    intro st st2 h hg
    simp only [visitList] at h
    cases hv : visit1 d st with
    | none => rw [hv] at h; cases h
    | some stm =>
      rw [hv, Option.some_bind] at h
      exact ih stm st2 h (h1 d st stm hv hg)

/-- Under coherence, `visit_component` preserves the resolver invariants. -/
theorem visit_good (heap : Heap) (hcoh : Coherent heap) :
    ∀ (fuel a : Nat) (st st2 : ResolveState),
      visit_component heap fuel a st = some st2 → GoodState heap st → GoodState heap st2 := by
  intro fuel
  induction fuel with
  | zero => intro a st st2 h; cases h
  | succ fuel ih =>
    intro a st st2 h hg
    rw [visit_component_succ] at h
    cases hc : heap[a]? with
    | none => rw [hc] at h; cases h
    | some c =>
      rw [hc, Option.some_bind] at h
      by_cases hv : get_component_id c ∈ st.visited
      · rw [if_pos hv] at h
        rwa [← Option.some.inj h]
      · rw [if_neg hv] at h
        cases hvl : visitList (fun d s => visit_component heap fuel d s) c.depends_on st with
        | none => rw [hvl] at h; cases h
        | some st3 =>
          rw [hvl, Option.some_bind] at h
          have hg3 : GoodState heap st3 :=
            visitList_good heap _ (fun a s s2 hvv hgg => ih a s s2 hvv hgg) _ _ _ hvl hg
          have hdeps := visitList_post heap fuel c.depends_on st st3 hvl
          by_cases hv3 : get_component_id c ∈ st3.visited
          · rw [if_pos hv3] at h
            rwa [← Option.some.inj h]
          · rw [if_neg hv3] at h
            rw [← Option.some.inj h]
            have hid : idAt heap a = get_component_id c := by
              unfold idAt
              rw [hc]
            refine ⟨?_, ?_, ?_, ?_, ?_⟩
            · show st3.visited ++ [get_component_id c] =
                (st3.resolved ++ [a]).map (idAt heap)
              rw [List.map_append, hg3.vis_eq]
              simp [hid]
            · show (st3.visited ++ [get_component_id c]).Nodup
              refine List.Nodup.append hg3.nodup (List.nodup_singleton _) ?_
              intro x hx hmem
              rw [List.mem_singleton.mp hmem] at hx
              exact hv3 hx
            · show ∀ b ∈ st3.resolved ++ [a], validAddr heap b
              intro b hb
              rcases List.mem_append.mp hb with hb | hb
              · exact hg3.valid b hb
              · rw [List.mem_singleton.mp hb]
                exact ⟨c, hc⟩
            · show ∀ (i : Nat) (hi : i < (st3.resolved ++ [a]).length),
                ∀ d ∈ depsAt heap ((st3.resolved ++ [a]).get ⟨i, hi⟩),
                  ∃ (j : Nat) (hj : j < (st3.resolved ++ [a]).length), j < i ∧
                    idAt heap ((st3.resolved ++ [a]).get ⟨j, hj⟩) = idAt heap d
              intro i hi d hd
              have hlen : (st3.resolved ++ [a]).length = st3.resolved.length + 1 := by simp
              have hin1 : i < st3.resolved.length + 1 := by rw [← hlen]; exact hi
              rcases Nat.lt_succ_iff_lt_or_eq.mp hin1 with hlt | heq
              · have hgeti : (st3.resolved ++ [a]).get ⟨i, hi⟩ = st3.resolved.get ⟨i, hlt⟩ := by
                  simp [List.getElem_append_left hlt]
                rw [hgeti] at hd
                obtain ⟨j, hj, hji, hjid⟩ := hg3.closed i hlt d hd
                have hj2 : j < (st3.resolved ++ [a]).length := by rw [hlen]; omega
                refine ⟨j, hj2, hji, ?_⟩
                have hgetj : (st3.resolved ++ [a]).get ⟨j, hj2⟩ = st3.resolved.get ⟨j, hj⟩ := by
                  simp [List.getElem_append_left hj]
                rw [hgetj]
                exact hjid
              · subst heq
                have hgeti : (st3.resolved ++ [a]).get ⟨st3.resolved.length, hi⟩ = a :=
                  get_append_singleton _ _ _
                rw [hgeti] at hd
                have hdc : d ∈ c.depends_on := by
                  unfold depsAt at hd
                  rwa [hc] at hd
                have hdid : idAt heap d ∈ st3.visited := (hdeps d hdc).2
                rw [hg3.vis_eq] at hdid
                obtain ⟨b, hb, hbid⟩ := List.mem_map.mp hdid
                obtain ⟨⟨j, hj⟩, hget⟩ := List.mem_iff_get.mp hb
                have hj2 : j < (st3.resolved ++ [a]).length := by rw [hlen]; omega
                refine ⟨j, hj2, hj, ?_⟩
                have hgetj : (st3.resolved ++ [a]).get ⟨j, hj2⟩ = st3.resolved.get ⟨j, hj⟩ := by
                  simp [List.getElem_append_left hj]
                rw [hgetj, hget]
                exact hbid
            · show ∀ (x : Nat) (cx : ComponentObj), heap[x]? = some cx →
                get_component_id cx ∈ st3.visited ++ [get_component_id c] →
                ∀ d ∈ cx.depends_on,
                  validAddr heap d ∧ idAt heap d ∈ st3.visited ++ [get_component_id c]
              intro x cx hx hmem d hd
              rcases List.mem_append.mp hmem with hmem | hmem
              · obtain ⟨hval, hvis⟩ := hg3.idsClosed x cx hx hmem d hd
                exact ⟨hval, List.mem_append_left _ hvis⟩
              · have hcx : get_component_id cx = get_component_id c := List.mem_singleton.mp hmem
                have hdeq : cx.depends_on = c.depends_on := hcoh x a cx c hx hc hcx
                rw [hdeq] at hd
                obtain ⟨hval, hvis⟩ := hdeps d hd
                exact ⟨hval, List.mem_append_left _ hvis⟩

/-- The empty starting state satisfies the resolver invariants. -/
theorem goodState_empty (heap : Heap) : GoodState heap ⟨[], []⟩ := by
  refine ⟨rfl, List.nodup_nil, ?_, ?_, ?_⟩
  · intro a ha; cases ha
  · intro i hi; cases hi
  · intro a c _ hmem; cases hmem

/-- The decidable coherence check implies propositional coherence. -/
theorem coherent_of_coherentb (heap : Heap) (h : coherentb heap = true) : Coherent heap := by
  intro a b ca cb ha hb hid
  have hma : ca ∈ heap := List.getElem?_mem ha
  have hmb : cb ∈ heap := List.getElem?_mem hb
  unfold coherentb at h
  rw [List.all_eq_true] at h
  have h1 := h ca hma
  rw [List.all_eq_true] at h1
  have h2 := h1 cb hmb
  simp only [hid, beq_self_eq_true, Bool.not_true, Bool.false_or, beq_iff_eq] at h2
  exact h2

/-- A successful resolution yields a final state with the invariants, whose
`resolved` list is the output, with every root visited. -/
theorem resolve_good (heap : Heap) (hcoh : Coherent heap) (fuel : Nat) (roots out : List Nat)
    (h : resolve_dependencies heap fuel roots = some out) :
    ∃ st : ResolveState, st.resolved = out ∧ GoodState heap st ∧
      ∀ r ∈ roots, validAddr heap r ∧ idAt heap r ∈ st.visited := by
  unfold resolve_dependencies at h
  cases hvl : visitList (fun d s => visit_component heap fuel d s) roots ⟨[], []⟩ with
  | none => rw [hvl] at h; cases h
  | some st =>
    rw [hvl, Option.map_some'] at h
    refine ⟨st, Option.some.inj h, ?_, ?_⟩
    · exact visitList_good heap _
        (fun a s s2 hv hgg => visit_good heap hcoh fuel a s s2 hv hgg) roots _ _ hvl
        (goodState_empty heap)
    · exact fun r hr => visitList_post heap fuel roots _ _ hvl r hr

/-- Dependency list of a dereferenced address. -/
theorem depsAt_eq {heap : Heap} {a : Nat} {c : ComponentObj} (hc : heap[a]? = some c) :
    depsAt heap a = c.depends_on := by
  unfold depsAt
  rw [hc]

/-- Identity string of a dereferenced address. -/
theorem idAt_eq {heap : Heap} {a : Nat} {c : ComponentObj} (hc : heap[a]? = some c) :
    idAt heap a = get_component_id c := by
  unfold idAt
  rw [hc]

/-- Under coherence, walking a dependency chain from an element of the
output strictly decreases positions: some output position strictly before
`a` carries the identity of the chain's target. -/
theorem chain_index (heap : Heap) (hcoh : Coherent heap) (st : ResolveState)
    (hG : GoodState heap st) (a b : Nat)
    (htg : Relation.TransGen (depEdge heap) a b) (ha : a ∈ st.resolved) :
    ∃ (j : Nat) (hj : j < st.resolved.length),
      idAt heap (st.resolved.get ⟨j, hj⟩) = idAt heap b ∧ j < st.resolved.indexOf a := by
  induction htg with
  | @single b1 e =>
    have hi : st.resolved.indexOf a < st.resolved.length := List.indexOf_lt_length.mpr ha
    have hget : st.resolved.get ⟨st.resolved.indexOf a, hi⟩ = a := List.indexOf_get hi
    obtain ⟨c, hc, hmem⟩ := e
    have hdep : b1 ∈ depsAt heap (st.resolved.get ⟨st.resolved.indexOf a, hi⟩) := by
      rw [hget, depsAt_eq hc]
      exact hmem
    obtain ⟨j, hj, hji, hjid⟩ := hG.closed (st.resolved.indexOf a) hi _ hdep
    exact ⟨j, hj, hjid, hji⟩
  | @tail m b1 hab e ih =>
    obtain ⟨k, hk, hkid, hka⟩ := ih
    have hm'mem : st.resolved.get ⟨k, hk⟩ ∈ st.resolved := List.get_mem _ _ _
    obtain ⟨cm', hcm'⟩ := hG.valid _ hm'mem
    obtain ⟨cm, hcm, hbmem⟩ := e
    have hidm : get_component_id cm' = get_component_id cm := by
      rw [← idAt_eq hcm', ← idAt_eq hcm]
      exact hkid
    have hdeq : cm'.depends_on = cm.depends_on := hcoh _ _ cm' cm hcm' hcm hidm
    have hdep : b1 ∈ depsAt heap (st.resolved.get ⟨k, hk⟩) := by
      rw [depsAt_eq hcm', hdeq]
      exact hbmem
    obtain ⟨j, hj, hjk, hjid⟩ := hG.closed k hk _ hdep
    exact ⟨j, hj, hjid, lt_trans hjk hka⟩

/-- C1 (amended): provided no two objects of the heap share an identity
string while declaring different `depends_on` lists, the resolver's output
places dependencies before dependents: whenever `b` lies in the transitive
closure of the `depends_on` relation from `a` and both are in the output,
`b`'s index is strictly smaller than `a`'s. -/
theorem c1_dependencies_precede (heap : Heap) (fuel : Nat) (roots out : List Nat)
    (hcoh : coherentb heap = true)
    (hres : resolve_dependencies heap fuel roots = some out)
    (a b : Nat) (ha : a ∈ out) (hb : b ∈ out)
    (hdep : Relation.TransGen (depEdge heap) a b) :
    out.indexOf b < out.indexOf a := by
  have hcoh' : Coherent heap := coherent_of_coherentb heap hcoh
  obtain ⟨st, hst, hG, _⟩ := resolve_good heap hcoh' fuel roots out hres
  subst hst
  obtain ⟨j, hj, hid, hlt⟩ := chain_index heap hcoh' st hG a b hdep ha
  have hkb : st.resolved.indexOf b < st.resolved.length := List.indexOf_lt_length.mpr hb
  have hgetb : st.resolved.get ⟨st.resolved.indexOf b, hkb⟩ = b := List.indexOf_get hkb
  have hnodupids : (st.resolved.map (idAt heap)).Nodup := by
    rw [← hG.vis_eq]
    exact hG.nodup
  have hjlen : j < (st.resolved.map (idAt heap)).length := by
    rw [List.length_map]
    exact hj
  have hklen : st.resolved.indexOf b < (st.resolved.map (idAt heap)).length := by
    rw [List.length_map]
    exact hkb
  have hmapj : (st.resolved.map (idAt heap))[j] = idAt heap b := by
    rw [List.getElem_map]
    have : st.resolved[j] = st.resolved.get ⟨j, hj⟩ := rfl
    rw [this, hid]
  have hmapk : (st.resolved.map (idAt heap))[st.resolved.indexOf b] = idAt heap b := by
    rw [List.getElem_map]
    have : st.resolved[st.resolved.indexOf b] =
        st.resolved.get ⟨st.resolved.indexOf b, hkb⟩ := rfl
    rw [this, hgetb]
  have hjk : j = st.resolved.indexOf b := by
    exact (@List.Nodup.getElem_inj_iff String (st.resolved.map (idAt heap)) hnodupids
      j hjlen (st.resolved.indexOf b) hklen).mp (by rw [hmapj, hmapk])
  rw [← hjk]
  exact hlt

/-- Witness for `c1_dependencies_precede` on the two-component chain. -/
theorem c1_dependencies_precede_witness :
    coherentb chainHeap = true ∧
      ([0, 1] : List Nat).indexOf 0 < ([0, 1] : List Nat).indexOf 1 :=
  ⟨by decide,
    c1_dependencies_precede chainHeap 10 [1] [0, 1] (by decide) (by decide) 1 0
      (by decide) (by decide)
      (Relation.TransGen.single ⟨⟨"top", "n", "dt", "ft", [0]⟩, rfl, by decide⟩)⟩

/-- Transitive reachability is impossible from a node to itself when a rank
strictly decreases along every edge. -/
theorem no_self_reach_of_rank (heap : Heap) (f : Nat → Nat)
    (hf : ∀ x y, depEdge heap x y → f y < f x) :
    ∀ x, ¬ Relation.TransGen (depEdge heap) x x := by
  have hlt : ∀ x y, Relation.TransGen (depEdge heap) x y → f y < f x := by
    intro x y h
    induction h with
    | single e => exact hf _ _ e
    | tail _ e ih => exact lt_trans (hf _ _ e) ih
  intro x hx
  exact lt_irrefl _ (hlt x x hx)

/-- Every dependency edge of `c1Heap` strictly decreases the address. -/
theorem c1Heap_edges {x y : Nat} (h : depEdge c1Heap x y) : y < x := by
  obtain ⟨c, hc, hy⟩ := h
  have hx : x < 5 := by
    by_contra hge
    push_neg at hge
    rw [List.getElem?_eq_none (by simpa [c1Heap] using hge)] at hc
    cases hc
  interval_cases x <;>
    (simp only [c1Heap] at hc
     simp only [List.getElem?_cons_zero, List.getElem?_cons_succ, Option.some.injEq] at hc
     subst hc
     simp at hy) <;> omega

/-- C1 counterexample: the claim quantifies over every acyclic input, but
on the acyclic heap `c1Heap` (which contains two objects of identity
`m:n:dm:fm` with different `depends_on`) the output `[2, 3, 0, 4]` places
address 3 before address 0 although 0 is in the transitive closure of 3's
`depends_on`. -/
theorem c1_counterexample :
    (∀ x, ¬ Relation.TransGen (depEdge c1Heap) x x) ∧
      resolve_dependencies c1Heap 10 [2, 3, 4] = some [2, 3, 0, 4] ∧
      Relation.TransGen (depEdge c1Heap) 3 0 ∧
      3 ∈ ([2, 3, 0, 4] : List Nat) ∧ 0 ∈ ([2, 3, 0, 4] : List Nat) ∧
      ¬ (([2, 3, 0, 4] : List Nat).indexOf 0 < ([2, 3, 0, 4] : List Nat).indexOf 3) := by
  refine ⟨no_self_reach_of_rank c1Heap id (fun x y h => c1Heap_edges h), by decide, ?_,
    by decide, by decide, by decide⟩
  have e31 : depEdge c1Heap 3 1 := ⟨⟨"a", "n", "da", "fa", [1]⟩, rfl, by decide⟩
  have e10 : depEdge c1Heap 1 0 := ⟨⟨"m", "n", "dm", "fm", [0]⟩, rfl, by decide⟩
  exact Relation.TransGen.tail (Relation.TransGen.single e31) e10

/-- C3 (amended): provided no two objects of the heap share an identity
string while declaring different `depends_on` lists, every identity
reachable from the roots through `depends_on` appears in the resolver's
output, and the output's identities are pairwise distinct (each appears
exactly once). -/
theorem c3_each_identity_once (heap : Heap) (fuel : Nat) (roots out : List Nat)
    (hcoh : coherentb heap = true)
    (hres : resolve_dependencies heap fuel roots = some out) :
    (out.map (idAt heap)).Nodup ∧
      ∀ r a, r ∈ roots → Relation.ReflTransGen (depEdge heap) r a →
        idAt heap a ∈ out.map (idAt heap) := by
  have hcoh' : Coherent heap := coherent_of_coherentb heap hcoh
  obtain ⟨st, hst, hG, hroots⟩ := resolve_good heap hcoh' fuel roots out hres
  subst hst
  constructor
  · rw [← hG.vis_eq]
    exact hG.nodup
  · intro r a hr hrt
    have key : validAddr heap a ∧ idAt heap a ∈ st.visited := by
      induction hrt with
      | refl => exact hroots r hr
      | @tail b1 c1 _ e ih =>
        obtain ⟨⟨cb, hcb⟩, hib⟩ := ih
        obtain ⟨cb2, hcb2, hmem⟩ := e
        rw [hcb2] at hcb
        have hcbeq : cb = cb2 := Option.some.inj hcb.symm
        have hvis : get_component_id cb2 ∈ st.visited := by
          rw [← idAt_eq hcb2]
          exact hib
        exact hG.idsClosed b1 cb2 hcb2 hvis c1 hmem
    rw [← hG.vis_eq]
    exact key.2

/-- Witness for `c3_each_identity_once` at scenario 2 of spec section 8:
the roots `[0, 1, 0]` (the same component supplied twice) resolve to
`[0, 1]`, whose identities are distinct and include the duplicate's. -/
theorem c3_each_identity_once_witness :
    resolve_dependencies scenario2Heap 10 [0, 1, 0] = some [0, 1] ∧
      (([0, 1] : List Nat).map (idAt scenario2Heap)).Nodup ∧
      idAt scenario2Heap 0 ∈ ([0, 1] : List Nat).map (idAt scenario2Heap) :=
  ⟨by decide,
    (c3_each_identity_once scenario2Heap 10 [0, 1, 0] [0, 1] (by decide) (by decide)).1,
    (c3_each_identity_once scenario2Heap 10 [0, 1, 0] [0, 1] (by decide) (by decide)).2 0 0
      (by decide) Relation.ReflTransGen.refl⟩

/-- C3 counterexample: the claim quantifies over every input, but over
`c3Heap` (two objects of identity `p:n:dp:fp` with different
`depends_on`) the roots `[0, 2]` resolve to `[0]` although address 1 is
reachable through the second root's `depends_on`; its identity appears
zero times in the output, not exactly once. -/
theorem c3_counterexample :
    resolve_dependencies c3Heap 10 [0, 2] = some [0] ∧
      Relation.ReflTransGen (depEdge c3Heap) 2 1 ∧
      2 ∈ ([0, 2] : List Nat) ∧
      idAt c3Heap 1 ∉ ([0] : List Nat).map (idAt c3Heap) := by
  have e21 : depEdge c3Heap 2 1 := ⟨⟨"p", "n", "dp", "fp", [1]⟩, rfl, by decide⟩
  exact ⟨by decide, Relation.ReflTransGen.single e21, by decide, by decide⟩

end SuperappDeploy
